import Mathlib

/-!
Verification development for the bltree-go-for-embedding B-link-tree engine.

The data model and the operations below are a shallow embedding of the Go
sources (src/bltree.go and the buffer-manager source file).  The byte-level
page helpers (KeyCmp, FindSlot, the slotted-page accessors and the global
constants) live in a source file that is not part of the packaged sources;
those primitives are modelled from the specification (sections 3.2, 4.1 and
6.3 of the spec) and are marked as such in their doc comments.
-/

namespace BlinkTree

/-- Byte strings (keys, values, serialised data) are lists of byte values. -/
abbrev Bytes := List Nat

/-- Modelled from the spec: BtId, the 6-byte page-id / value-id encoding size
(spec section 6.3, "Right-pointer / value id encoding: 6 bytes"). -/
def BtId : Nat := 6

/-- Modelled from the spec: KeyCmp, byte-wise lexicographic key comparison
(the page helper file is not under src/). -/
def keyCmp : Bytes → Bytes → Ordering
  | [], [] => Ordering.eq
  | [], _ :: _ => Ordering.lt
  | _ :: _, [] => Ordering.gt
  | a :: as, b :: bs =>
    if a < b then Ordering.lt
    else if b < a then Ordering.gt
    else keyCmp as bs

/-- Modelled from the spec: slot type tags (spec section 3.2: Unique,
Duplicate, Librarian). -/
inductive SlotType where
  | Unique
  | Duplicate
  | Librarian
deriving DecidableEq, Inhabited

/-- Modelled from the spec: one slot of the ascending slot array together
with the heap record it points at (length-prefixed key and value), spec
section 3.2. -/
structure PSlot where
  key : Bytes
  value : Bytes
  typ : SlotType
  dead : Bool
deriving DecidableEq, Inhabited

/-- Modelled from the spec: a slotted page.  The header fields follow spec
section 3.2 (Act, Garbage, Lvl, Kill, Free, Right, Min); the slot array and
heap are represented structurally as the list of slots (slot i, 1-based, is
slots.getD (i-1)). -/
structure MPage where
  slots : List PSlot
  act : Nat
  garbage : Nat
  lvl : Nat
  kill : Bool
  free : Bool
  rightP : Nat
  minOff : Nat
deriving DecidableEq, Inhabited

/-- Slot count Cnt of a page (the slot array length). -/
def cnt (p : MPage) : Nat := p.slots.length

/-- One-based slot access, as the Go sources use 1-based slot indexing. -/
def slotAt (p : MPage) (i : Nat) : PSlot := p.slots.getD (i - 1) default

/-- Modelled from the spec: FindSlot, returning the smallest slot whose key
is greater than or equal to the search key, or 0 when every key on the page
is smaller (the caller then slides right), spec section 4.1. -/
def findSlotGo (k : Bytes) : List PSlot → Nat → Nat
  | [], _ => 0
  | s :: rest, i => if keyCmp s.key k ≠ Ordering.lt then i else findSlotGo k rest (i + 1)

/-- FindSlot on a page, 1-based result. -/
def findSlotIdx (p : MPage) (k : Bytes) : Nat := findSlotGo k p.slots 1

/-- Effective compared key length of a slot: a Duplicate key carries a 6-byte
sequence suffix that is not compared (src/bltree.go lines 415-417 and
1034-1035). -/
def effLen (s : PSlot) : Nat :=
  if s.typ = SlotType.Duplicate then s.key.length - BtId else s.key.length

/-- The exact-match test FindKey and InsertKey perform on a slot:
effective key length equals the search key length and the truncated key
compares equal (src/bltree.go lines 432-433 and 1042). -/
def matchesSlot (s : PSlot) (k : Bytes) : Prop :=
  effLen s = k.length ∧ keyCmp (s.key.take (effLen s)) k = Ordering.eq

instance (s : PSlot) (k : Bytes) : Decidable (matchesSlot s k) := by
  unfold matchesSlot; infer_instance

/-- Result of the FindKey loop restricted to one page: a found value with
its returned length, the not-found result (FindKey returns -1), or a slide
into the right sibling (outside the single-page embedding). -/
inductive FindRes where
  | found (retLen : Nat) (val : Bytes)
  | notFound
  | crossPage
deriving DecidableEq

/-- The FindKey slot loop of src/bltree.go lines 400-445, restricted to one
page: skip a librarian place holder, stop at the stopper key on the
rightmost page, skip dead slots (findNext advances to the next slot, or
crosses to the right sibling past the last slot), and on an exact match
return min valMax (value length) bytes of the value. -/
def findKeyLoop (p : MPage) (k : Bytes) (valMax : Nat) : Nat → Nat → FindRes
  | 0, _ => FindRes.crossPage
  | fuel + 1, slot0 =>
    let slot := if (slotAt p slot0).typ = SlotType.Librarian then slot0 + 1 else slot0
    let s := slotAt p slot
    if slot = cnt p ∧ p.rightP = 0 then FindRes.notFound
    else if s.dead then
      if slot < cnt p then findKeyLoop p k valMax fuel (slot + 1) else FindRes.crossPage
    else if matchesSlot s k then FindRes.found (min valMax s.value.length) (s.value.take valMax)
    else FindRes.notFound

/-- FindKey on a single page (src/bltree.go lines 395-451): PageFetch lands
on the slot FindSlot returns (src buffer manager, PageFetch, line 777), then
the slot loop runs; a zero slot means the search slid off the page. -/
def findKeyOnPage (p : MPage) (k : Bytes) (valMax : Nat) : FindRes :=
  let s := findSlotIdx p k
  if s = 0 then FindRes.crossPage else findKeyLoop p k valMax (cnt p + 1) s

/-- The librarian-reuse step at the head of insertSlot (src/bltree.go lines
911-915): if the previous slot is a librarian place holder, move onto it. -/
def skipPrevLibrarian (p : MPage) (slot : Nat) : Nat :=
  if 1 < slot ∧ (slotAt p (slot - 1)).typ = SlotType.Librarian then slot - 1 else slot

/-- The first-dead-slot scan of insertSlot (src/bltree.go lines 925-931):
the first slot index in [slot, Cnt) whose slot is dead. -/
def firstDeadFrom (p : MPage) (slot : Nat) : Option Nat :=
  (List.range' slot (cnt p - slot)).find? (fun i => (slotAt p i).dead)

/-- insertSlot (src/bltree.go lines 889-980): reuse a preceding librarian
slot, write key and value to the heap (Min decreases by their prefixed
lengths), then either consume the first dead slot at or after the insertion
point by shifting the range up by one, or append two slots (a dead
librarian and the new live slot) shifting by two.  Act is incremented. -/
def insertSlotCore (p : MPage) (slot0 : Nat) (k v : Bytes) (typ : SlotType) : MPage :=
  let slot := skipPrevLibrarian p slot0
  let min' := p.minOff - (v.length + 1) - (k.length + 1)
  let newSlot : PSlot := ⟨k, v, typ, false⟩
  let libSlot : PSlot := ⟨k, v, SlotType.Librarian, true⟩
  match firstDeadFrom p slot with
  | some d =>
      { p with
        slots := p.slots.take (slot - 1) ++ newSlot :: ((p.slots.eraseIdx (d - 1)).drop (slot - 1)),
        act := p.act + 1, minOff := min' }
  | none =>
      { p with
        slots := p.slots.take (slot - 1) ++ libSlot :: newSlot :: p.slots.drop (slot - 1),
        act := p.act + 1, minOff := min' }

/-- State of the cleanPage compaction loop (src/bltree.go lines 552-614).
The written-slot counter idx of the source is the length of the rebuilt
slot list. -/
structure CleanSt where
  nxt : Nat
  act : Nat
  newSlot : Nat
  out : List PSlot
deriving DecidableEq

/-- One iteration of the cleanPage compaction loop (src/bltree.go lines
564-611): remember where the target slot will land, skip dead slots other
than the fence, copy value and key to the fresh heap, interleave a dead
librarian slot before every copied slot except the first, and recount
Act. -/
def cleanStep (max slotArg : Nat) (st : CleanSt) (pos : Nat) (s : PSlot) : CleanSt :=
  let st :=
    if pos = slotArg then
      { st with newSlot := if st.out.length = 0 then 1 else st.out.length + 2 }
    else st
  if pos < max ∧ s.dead then st
  else
    let nxt := st.nxt - (s.value.length + 1) - (s.key.length + 1)
    let out :=
      if 0 < st.out.length then
        st.out ++ [⟨s.key, s.value, SlotType.Librarian, true⟩, ⟨s.key, s.value, s.typ, s.dead⟩]
      else st.out ++ [⟨s.key, s.value, s.typ, s.dead⟩]
    let act := if s.dead then st.act else st.act + 1
    { nxt := nxt, act := act, newSlot := st.newSlot, out := out }

/-- The cleanPage compaction loop over the copied frame, 1-based slot
positions. -/
def cleanGo (max slotArg : Nat) : Nat → List PSlot → CleanSt → CleanSt
  | _, [], st => st
  | pos, s :: rest, st => cleanGo max slotArg (pos + 1) rest (cleanStep max slotArg st pos s)

/-- Result of cleanPage: 0 meaning the page needs splitting, a usable slot
index with the (possibly compacted) page, or the assertion failure of the
source's final branch. -/
inductive CleanRes where
  | needSplit (p : MPage)
  | ok (slot : Nat) (p : MPage)
  | aborted (p : MPage)
deriving DecidableEq

/-- cleanPage (src/bltree.go lines 513-631).  First the split policy:
estimate the post-cleanup footprint from the live count and the incoming
entry size and demand a fifth of the page data area free (the comparison is
on machine ints, hence the Int subtraction); then the fast path when the
heap still has room for the entry plus two slots; otherwise compact the
page and re-check.  keyLen and valLen are uint8 in the source, so the
per-entry sum 1+keyLen+1+valLen of line 526 is 8-bit arithmetic that wraps
mod 256 before it is widened to uint32; the later occurrences on lines 548
and 626 convert to uint32 first and do not wrap. -/
def cleanPage (pds slotSize : Nat) (p : MPage) (keyLen slot valLen : Nat) : CleanRes :=
  let max := cnt p
  let dataSpaceAfterClean := ((1 + keyLen + 1 + valLen) % 256) * (p.act + 1)
  let afterCleanSize := dataSpaceAfterClean + (p.act * 2 + 1) * slotSize
  if (pds : Int) - (afterCleanSize : Int) < ((pds / 5 : Nat) : Int) then CleanRes.needSplit p
  else if dataSpaceAfterClean + (p.act * 2 + 1) * slotSize > pds then CleanRes.needSplit p
  else if (max + 2) * slotSize + keyLen + 1 + valLen + 1 ≤ p.minOff then CleanRes.ok slot p
  else
    let st := cleanGo max slot 1 p.slots ⟨pds, 0, max, []⟩
    let p' := { p with slots := st.out, act := st.act, garbage := 0, minOff := st.nxt }
    if p'.minOff < pds / 5 then CleanRes.needSplit p'
    else if (st.out.length + 2) * slotSize + keyLen + 1 + valLen + 1 < p'.minOff then
      CleanRes.ok st.newSlot p'
    else CleanRes.aborted p'

/-- The slot update of InsertKey's exact-match branch (src/bltree.go lines
1061-1071): a dead match is revived (Act incremented), the dead flag is
cleared and the value overwritten in place. -/
def insertKeyMatch (p : MPage) (slot : Nat) (v : Bytes) : MPage :=
  let s := slotAt p slot
  let act' := if s.dead then p.act + 1 else p.act
  { p with act := act', slots := p.slots.set (slot - 1) { s with dead := false, value := v } }

/-- Result of InsertKey on its target page: the updated page, a split
request, a compaction assertion failure, or a failed fetch. -/
inductive InsRes where
  | ok (p : MPage)
  | split (p : MPage)
  | aborted (p : MPage)
  | fetchFail
deriving DecidableEq

/-- InsertKey on its target page, unique-key case (src/bltree.go lines
1010-1079; the source notes uniq is always true).  PageFetch lands on the
FindSlot slot; a librarian slot holding an equal key is advanced past; if
the slot is not an exact live-length match, cleanPage is consulted (with
valLen = BtId as in the source) and insertSlot runs on its result,
otherwise the match branch updates in place. -/
def insertKeyOnPage (pds slotSize : Nat) (p : MPage) (k v : Bytes) : InsRes :=
  let slot0 := findSlotIdx p k
  if slot0 = 0 then InsRes.fetchFail
  else
    let slot1 :=
      if (slotAt p slot0).typ = SlotType.Librarian ∧ keyCmp (slotAt p slot0).key k = Ordering.eq
      then slot0 + 1 else slot0
    let s := slotAt p slot1
    if effLen s ≠ k.length ∨ keyCmp s.key k ≠ Ordering.eq then
      match cleanPage pds slotSize p k.length slot1 BtId with
      | CleanRes.needSplit p' => InsRes.split p'
      | CleanRes.aborted p' => InsRes.aborted p'
      | CleanRes.ok s' p' => InsRes.ok (insertSlotCore p' s' k v SlotType.Unique)
    else InsRes.ok (insertKeyMatch p slot1 v)

/-- Marking a slot dead in DeleteKey (src/bltree.go lines 303-307): set the
dead flag, add the prefixed key and value lengths to Garbage, decrement
Act. -/
def markDeadAt (p : MPage) (slot : Nat) : MPage :=
  let s := slotAt p slot
  { p with
    slots := p.slots.set (slot - 1) { s with dead := true },
    garbage := p.garbage + (1 + s.key.length) + (1 + s.value.length),
    act := p.act - 1 }

/-- The trailing-compaction loop of DeleteKey (src/bltree.go lines 309-320):
while the slot just below the fence is dead, copy the fence down over it and
drop the last slot.  Each pass shortens the list by one, so the initial
length bounds the iteration count. -/
def compactTrailGo : Nat → List PSlot → List PSlot
  | 0, l => l
  | fuel + 1, l =>
    if 2 ≤ l.length ∧ (l.getD (l.length - 2) default).dead = true then
      compactTrailGo fuel (l.eraseIdx (l.length - 2))
    else l

/-- The trailing-compaction loop, run to completion. -/
def compactTrail (l : List PSlot) : List PSlot := compactTrailGo l.length l

/-- The page DeleteKey produces from a live exact match: the slot is marked
dead (src/bltree.go lines 303-307) and the trailing dead slots beneath the
fence are compacted away (lines 309-320). -/
def deleteFoundPage (p : MPage) (slot : Nat) : MPage :=
  { markDeadAt p slot with slots := compactTrail (markDeadAt p slot).slots }

/-- Result of DeleteKey on its target page: plain success, or entry into
one of the structural follow-ups of the source (fence fix-up, root
collapse, empty-page deletion), or a failed fetch. -/
inductive DelRes where
  | ok (p : MPage)
  | fixFence (p : MPage)
  | collapseRoot (p : MPage)
  | deletePage (p : MPage)
  | fetchFail
deriving DecidableEq

/-- DeleteKey on its target page (src/bltree.go lines 277-358): PageFetch
lands on the FindSlot slot; a librarian slot is advanced past; a live exact
match is marked dead and the trailing dead slots beneath the fence are
compacted away; then the structural follow-ups are dispatched exactly as in
the source (fence fix-up when a fence key of an upper level was removed and
the page stays non-empty, root collapse, empty-page deletion), otherwise
plain success. -/
def deleteKeyOnPage (p : MPage) (k : Bytes) (lvl : Nat) (isRoot : Bool) : DelRes :=
  let slot0 := findSlotIdx p k
  if slot0 = 0 then DelRes.fetchFail
  else
    let slot := if (slotAt p slot0).typ = SlotType.Librarian then slot0 + 1 else slot0
    let fence := slot = cnt p
    let found := keyCmp (slotAt p slot).key k = Ordering.eq ∧ (slotAt p slot).dead = false
    let p1 := if found then deleteFoundPage p slot else p
    if found ∧ 0 < lvl ∧ 0 < p1.act ∧ fence then DelRes.fixFence p1
    else if 1 < lvl ∧ isRoot ∧ p1.act = 1 then DelRes.collapseRoot p1
    else if p1.act = 0 then DelRes.deletePage p1
    else DelRes.ok p1

/-- Modelled from the spec: the 6-byte big-endian page-id encoding PutID
(spec section 6.3: high-to-low bytes of a 48-bit unsigned integer). -/
def putId (n : Nat) : Bytes :=
  [n / 256 ^ 5 % 256, n / 256 ^ 4 % 256, n / 256 ^ 3 % 256,
   n / 256 ^ 2 % 256, n / 256 % 256, n % 256]

/-- Modelled from the spec: GetID, decoding the 6-byte big-endian page id. -/
def getId (b : Bytes) : Nat :=
  b.getD 5 0 + 256 * (b.getD 4 0 + 256 * (b.getD 3 0 + 256 *
    (b.getD 2 0 + 256 * (b.getD 1 0 + 256 * b.getD 0 0))))

/-- splitRoot (src/bltree.go lines 636-694): the old root's contents are
copied into a freshly allocated left child; the root data area is wiped and
rebuilt as a two-entry node whose slot 1 carries the old fence key with the
new left child's id as value and whose slot 2 carries the stopper key with
the right page's id as value; the right pointer is cleared, Cnt and Act are
set to 2 and the level is incremented.  Returns (new root, left child). -/
def splitRoot (pds : Nat) (root : MPage) (rightPageNo leftPageNo : Nat) : MPage × MPage :=
  let leftKey := (slotAt root (cnt root)).key
  let leftChild := root
  let nxt1 := pds - (BtId + 1)
  let nxt2 := nxt1 - (2 + 1)
  let nxt3 := nxt2 - (BtId + 1)
  let nxt4 := nxt3 - (leftKey.length + 1)
  let slot1 : PSlot := ⟨leftKey, putId leftPageNo, SlotType.Unique, false⟩
  let slot2 : PSlot := ⟨[255, 255], putId rightPageNo, SlotType.Unique, false⟩
  let newRoot : MPage :=
    { slots := [slot1, slot2], act := 2, garbage := root.garbage, lvl := root.lvl + 1,
      kill := root.kill, free := root.free, rightP := 0, minOff := nxt4 }
  (newRoot, leftChild)

/-- Little-endian 4-byte encoding used by the id-mapping serialisation
(binary.LittleEndian.PutUint32). -/
def putUint32LE (n : Nat) : Bytes :=
  [n % 256, n / 256 % 256, n / 256 ^ 2 % 256, n / 256 ^ 3 % 256]

/-- Little-endian 4-byte decoding (binary.LittleEndian.Uint32). -/
def getUint32LE (b : Bytes) : Nat :=
  b.getD 0 0 + 256 * (b.getD 1 0 + 256 * (b.getD 2 0 + 256 * b.getD 3 0))

/-- Little-endian 8-byte encoding (binary.LittleEndian.PutUint64). -/
def putUint64LE (n : Nat) : Bytes :=
  [n % 256, n / 256 % 256, n / 256 ^ 2 % 256, n / 256 ^ 3 % 256,
   n / 256 ^ 4 % 256, n / 256 ^ 5 % 256, n / 256 ^ 6 % 256, n / 256 ^ 7 % 256]

/-- Little-endian 8-byte decoding (binary.LittleEndian.Uint64). -/
def getUint64LE (b : Bytes) : Nat :=
  b.getD 0 0 + 256 * (b.getD 1 0 + 256 * (b.getD 2 0 + 256 *
    (b.getD 3 0 + 256 * (b.getD 4 0 + 256 *
      (b.getD 5 0 + 256 * (b.getD 6 0 + 256 * b.getD 7 0))))))

/-- One serialised id-mapping entry: 8-byte little-endian logical page
number followed by the 4-byte little-endian host page id (source format
comment: entry is 12 bytes). -/
def encEntry (e : Nat × Nat) : Bytes := putUint64LE e.1 ++ putUint32LE e.2

/-- The entry area of one chain page. -/
def encEntries (es : List (Nat × Nat)) : Bytes :=
  es.foldr (fun e acc => encEntry e ++ acc) []

/-- One chain page's data region: next host page id (4 bytes), entry count
(4 bytes), then the entries (source serializePageIdMappingToPage format
comment). -/
def mkChainPage (next cntE : Nat) (es : List (Nat × Nat)) : Bytes :=
  putUint32LE next ++ putUint32LE cntE ++ encEntries es

/-- The capacity of one page's entry area
(serializePageIdMappingToPage: maxSerializeNum). -/
def maxSerializeNum (pds : Nat) : Nat := (pds - (4 + 4)) / 12

/-- serializePageIdMappingToPage (buffer-manager source lines 323-408) on
the entry list: fill the current page's entry area; when the per-page
capacity is reached, stamp the current page's header with the next host
page id (freshly allocated, modelled by the counter nid) and the full
count and continue on the next page; the final page's header carries the
0xFFFFFFFF terminator and the remaining count.  The fuel argument bounds
the recursion and is instantiated with the entry count. -/
def serializeChainGo (maxN : Nat) : Nat → Nat → List (Nat × Nat) → List Bytes
  | _, 0, es => [mkChainPage 4294967295 es.length es]
  | nid, fuel + 1, es =>
    if maxN ≤ es.length then
      mkChainPage nid maxN (es.take maxN) :: serializeChainGo maxN (nid + 1) fuel (es.drop maxN)
    else [mkChainPage 4294967295 es.length es]

/-- The id-mapping serialisation: page zero's data region followed by the
chain of continuation pages. -/
def serializePageIdMapping (pds nid : Nat) (es : List (Nat × Nat)) : List Bytes :=
  serializeChainGo (maxSerializeNum pds) nid es.length es

/-- The entry-decoding loop of loadPageIdMapping (buffer-manager source
lines 417-425): read count entries of 12 bytes each. -/
def decEntriesGo : Nat → Bytes → List (Nat × Nat)
  | 0, _ => []
  | n + 1, b => (getUint64LE b, getUint32LE (b.drop 8)) :: decEntriesGo n (b.drop 12)

/-- loadPageIdMapping (buffer-manager source lines 410-450) over the chain
of page data regions: read the entry count, decode the entries, then follow
the next host page id until the 0xFFFFFFFF terminator. -/
def loadPageIdMappingGo : List Bytes → List (Nat × Nat)
  | [] => []
  | pg :: rest =>
    let cntE := getUint32LE (pg.drop 4)
    let es := decEntriesGo cntE (pg.drop 8)
    let next := getUint32LE pg
    if next = 4294967295 then es else es ++ loadPageIdMappingGo rest

/-- Error kinds of the engine (spec section 7; the enum's source file is
not under src/). -/
inductive BLTErr where
  | Ok
  | Struct
  | Overflow
  | ReadErr
  | WriteErr
  | HostError
deriving DecidableEq

/-- The error fields involved in InsertKey's failed-fetch path: the tree
handle's own err field and the buffer manager's err field, which are
distinct fields of distinct objects in the source. -/
structure ErrSt where
  treeErr : BLTErr
  mgrErr : BLTErr
deriving DecidableEq

/-- A failing PageFetch (buffer-manager source, PageFetch lines 686-804):
every failure path records BLTErrStruct in the buffer manager's err field
and returns slot 0; the tree handle's err field is not touched (PageFetch
is a method of the buffer manager and never sees it). -/
def pageFetchFail (st : ErrSt) : ErrSt × Nat :=
  ({ st with mgrErr := BLTErr.Struct }, 0)

/-- InsertKey's handling of a failed initial fetch (src/bltree.go lines
1010-1019): on slot 0 it inspects the tree handle's err field, rewrites any
non-Ok value to BLTErrOverflow, and returns that field. -/
def insertKeyFetchFailed (st : ErrSt) : ErrSt × BLTErr :=
  let fr := pageFetchFail st
  let st1 := fr.1
  if fr.2 = 0 then
    if st1.treeErr ≠ BLTErr.Ok then
      let st2 := { st1 with treeErr := BLTErr.Overflow }
      (st2, st2.treeErr)
    else (st1, st1.treeErr)
  else (st1, BLTErr.Ok)

/-- Outcome of the NewBufMgr argument checks. -/
inductive ConfigResult where
  | ok (effBits : Nat)
  | panicSmallPool
deriving DecidableEq

/-- The argument validation of NewBufMgr (buffer-manager source lines
52-66): an out-of-range bits argument is clamped to the nearest bound of
[BtMinBits, BtMaxBits] (the constants' source file is not under src/, so
they are parameters here), and a pool smaller than
HASH_TABLE_ENTRY_CHAIN_LEN = 16 entries panics. -/
def newBufMgrCheck (btMinBits btMaxBits bits nodeMax : Nat) : ConfigResult :=
  let bits :=
    if btMaxBits < bits then btMaxBits
    else if bits < btMinBits then btMinBits
    else bits
  if nodeMax < 16 then ConfigResult.panicSmallPool
  else ConfigResult.ok bits

/-- A two-slot leaf page (one live key 2, then the stopper fence) used as a
concrete instance in witnesses. -/
def pageTwoSlots : MPage :=
  ⟨[⟨[2], [9, 9, 9, 9, 9, 9], SlotType.Unique, false⟩,
    ⟨[255, 255], [], SlotType.Unique, false⟩], 2, 0, 0, false, false, 0, 100⟩

/-- A one-slot leaf page (just the stopper fence) whose heap low-water sits
exactly at the cleanPage admission threshold for a 1-byte key and a 6-byte
value with SlotSize 6; used to exercise the boundary of the heap/slot-array
invariant. -/
def pageAtThreshold : MPage :=
  ⟨[⟨[255, 255], [], SlotType.Unique, false⟩], 1, 0, 0, false, false, 0, 27⟩

/-- The initial level-0 leaf page of a fresh tree: a single stopper slot,
heap low-water just below the page data size (NewBufMgr initialisation in
the buffer-manager source, lines 128-153, for 12-bit pages). -/
def pageInitialLeaf : MPage :=
  ⟨[⟨[255, 255], [], SlotType.Unique, false⟩], 1, 0, 0, false, false, 0, 4066⟩

/-- A page with twelve live entries whose records are 253-byte keys with
6-byte values (entry size 261 bytes, heap low-water 4070 - 12*261 = 938);
used to exercise the 8-bit wrap of cleanPage's footprint estimate.  Only
the slot count, Act and Min enter that estimate. -/
def pageWideKeys : MPage :=
  ⟨List.replicate 12 ⟨[1], [2], SlotType.Unique, false⟩, 12, 0, 0, false, false, 0, 938⟩

/-! Helper lemmas about the key comparison. -/

theorem keyCmp_eq_iff : ∀ (a b : Bytes), keyCmp a b = Ordering.eq ↔ a = b := by
  intro a
  induction a with
  | nil => intro b; cases b <;> simp [keyCmp]
  | cons x xs ih =>
    intro b
    cases b with
    | nil => simp [keyCmp]
    | cons y ys =>
      simp only [keyCmp]
      rcases lt_trichotomy x y with h | h | h
      · rw [if_pos h]
        constructor
        · intro hh; exact absurd hh (by decide)
        · intro hh; injection hh with hx _; omega
      · subst h
        rw [if_neg (by omega), if_neg (by omega)]
        simp [ih ys]
      · rw [if_neg (by omega), if_pos h]
        constructor
        · intro hh; exact absurd hh (by decide)
        · intro hh; injection hh with hx _; omega

theorem keyCmp_self (a : Bytes) : keyCmp a a = Ordering.eq := (keyCmp_eq_iff a a).mpr rfl

theorem keyCmp_gt_iff : ∀ (a b : Bytes), keyCmp a b = Ordering.gt ↔ keyCmp b a = Ordering.lt := by
  intro a
  induction a with
  | nil => intro b; cases b <;> simp [keyCmp]
  | cons x xs ih =>
    intro b
    cases b with
    | nil => simp [keyCmp]
    | cons y ys =>
      simp only [keyCmp]
      rcases lt_trichotomy x y with h | h | h
      · rw [if_pos h, if_neg (by omega), if_pos h]
        constructor
        · intro hh; exact absurd hh (by decide)
        · intro hh; exact absurd hh (by decide)
      · subst h
        rw [if_neg (by omega), if_neg (by omega), if_neg (by omega), if_neg (by omega)]
        exact ih ys
      · rw [if_neg (by omega), if_pos h, if_pos h]
        exact ⟨fun _ => rfl, fun _ => rfl⟩

theorem getId_putId (n : Nat) (h : n < 2 ^ 48) : getId (putId n) = n := by
  unfold putId getId
  simp only [List.getD_cons_succ, List.getD_cons_zero]
  omega

/-! C6: the cleanPage split policy. -/

/-- C6 counterexample: with a 253-byte key and the 6-byte value the source
computes the per-entry size 1+keyLen+1+valLen in uint8 arithmetic, so 261
wraps to 5; on a page with 12 live entries the claimed footprint
F = 13*261 + 25*6 = 3543 leaves less than a fifth of the 4070 data bytes
free, yet cleanPage admits the insertion (returns the slot) instead of
signalling a split. -/
theorem cleanPage_wrap_counterexample :
    ((4070 : Int) -
        (((pageWideKeys.act + 1) * (253 + 6 + 2)
          + (2 * pageWideKeys.act + 1) * 6 : Nat) : Int) < ((4070 / 5 : Nat) : Int))
    ∧ cleanPage 4070 6 pageWideKeys 253 1 6 = CleanRes.ok 1 pageWideKeys := by
  decide

/-- C6 amended: cleanPage computes the per-entry size of its footprint
estimate in 8-bit arithmetic, F = (Act+1)*((keyLen+valLen+2) mod 256)
+ (2*Act+1)*SlotSize, and signals "split required" whenever
pageDataSize - F < pageDataSize/5 (machine-int comparison); whenever
keyLen+valLen+2 < 256 — every key below 248 bytes with the 6-byte value —
this is exactly the claimed footprint. -/
theorem cleanPage_split_when_low_space (pds slotSize : Nat) (p : MPage)
    (keyLen slot valLen : Nat)
    (h : (pds : Int) -
        (((p.act + 1) * ((keyLen + valLen + 2) % 256) + (2 * p.act + 1) * slotSize : Nat) :
          Int) < ((pds / 5 : Nat) : Int)) :
    cleanPage pds slotSize p keyLen slot valLen = CleanRes.needSplit p := by
  have h' : (pds : Int) -
      ((((1 + keyLen + 1 + valLen) % 256) * (p.act + 1) + (p.act * 2 + 1) * slotSize : Nat) :
        Int) < ((pds / 5 : Nat) : Int) := by
    have e : ((1 + keyLen + 1 + valLen) % 256) * (p.act + 1) + (p.act * 2 + 1) * slotSize
        = (p.act + 1) * ((keyLen + valLen + 2) % 256) + (2 * p.act + 1) * slotSize := by
      rw [show 1 + keyLen + 1 + valLen = keyLen + valLen + 2 from by ring]
      ring
    rw [e]; exact h
  simp only [cleanPage]
  rw [if_pos h']

/-- C6 witness: a page of 100 data bytes with 10 live entries and a
16-byte incoming entry is over the split threshold, and cleanPage returns
the split signal on it. -/
theorem cleanPage_split_when_low_space_witness :
    ((100 : Int) - (((10 + 1) * ((8 + 6 + 2) % 256) + (2 * 10 + 1) * 6 : Nat) : Int) <
      ((100 / 5 : Nat) : Int))
    ∧ cleanPage 100 6 ⟨[], 10, 0, 0, false, false, 0, 50⟩ 8 1 6 =
      CleanRes.needSplit ⟨[], 10, 0, 0, false, false, 0, 50⟩ :=
  ⟨by decide, cleanPage_split_when_low_space 100 6 ⟨[], 10, 0, 0, false, false, 0, 50⟩ 8 1 6
    (by decide)⟩

/-! C9: NewBufMgr argument validation. -/

/-- C9 counterexample: with BtMinBits = 9 and BtMaxBits = 15, a bits
argument of 20 lies outside the range, yet construction succeeds (the
value is clamped to 15); the claim that construction fails on out-of-range
bits is false. -/
theorem newBufMgr_bits_counterexample :
    15 < 20 ∧ newBufMgrCheck 9 15 20 16 = ConfigResult.ok 15 := by decide

/-- C9 amended: construction panics exactly when nodeMax is below
HASH_TABLE_ENTRY_CHAIN_LEN = 16; an out-of-range bits argument is clamped
to the nearest bound of [BtMinBits, BtMaxBits] and construction succeeds;
in-range arguments are kept as passed. -/
theorem newBufMgrCheck_clamps (btMinBits btMaxBits bits nodeMax : Nat)
    (hb : btMinBits ≤ btMaxBits) :
    ((newBufMgrCheck btMinBits btMaxBits bits nodeMax = ConfigResult.panicSmallPool) ↔
      nodeMax < 16)
    ∧ (16 ≤ nodeMax → ∃ eff,
        newBufMgrCheck btMinBits btMaxBits bits nodeMax = ConfigResult.ok eff
        ∧ btMinBits ≤ eff ∧ eff ≤ btMaxBits
        ∧ (btMinBits ≤ bits → bits ≤ btMaxBits → eff = bits)) := by
  by_cases hn : nodeMax < 16
  · simp only [newBufMgrCheck, if_pos hn]
    refine ⟨?_, fun h16 => absurd h16 (by omega)⟩
    simp [hn]
  · simp only [newBufMgrCheck, if_neg hn]
    refine ⟨?_, fun _ => ?_⟩
    · simp [hn]
    · refine ⟨_, rfl, ?_, ?_, ?_⟩
      · split_ifs <;> omega
      · split_ifs <;> omega
      · intro hlo hhi
        rw [if_neg (by omega), if_neg (by omega)]

/-- C9 witness: with bounds [9, 15], pool size 20 and in-range bits 12,
construction succeeds and keeps bits = 12. -/
theorem newBufMgrCheck_clamps_witness :
    (9 : Nat) ≤ 15 ∧
    (((newBufMgrCheck 9 15 12 20 = ConfigResult.panicSmallPool) ↔ (20 : Nat) < 16)
      ∧ ((16 : Nat) ≤ 20 → ∃ eff,
          newBufMgrCheck 9 15 12 20 = ConfigResult.ok eff
          ∧ 9 ≤ eff ∧ eff ≤ 15 ∧ ((9 : Nat) ≤ 12 → (12 : Nat) ≤ 15 → eff = 12))) :=
  ⟨by decide, newBufMgrCheck_clamps 9 15 12 20 (by decide)⟩

/-! C10: the error path of InsertKey after a failed fetch. -/

/-- C10: when the initial PageFetch of InsertKey fails, the fetch records
BLTErrStruct in the buffer manager's err field, but InsertKey returns the
tree handle's own err field (rewriting any non-Ok value to BLTErrOverflow):
a tree whose err still holds Ok gets Ok back although nothing was inserted,
and the recorded Struct error is never surfaced. -/
theorem insertKey_fetchFail_masks_error (st : ErrSt) :
    (insertKeyFetchFailed st).2 =
      (if st.treeErr = BLTErr.Ok then BLTErr.Ok else BLTErr.Overflow)
    ∧ (insertKeyFetchFailed st).1.mgrErr = BLTErr.Struct
    ∧ (insertKeyFetchFailed st).2 ≠ BLTErr.Struct := by
  unfold insertKeyFetchFailed pageFetchFail
  by_cases h : st.treeErr = BLTErr.Ok
  · simp [h]
  · simp [h]

/-! C7: splitRoot. -/

/-- C7: when the root splits, splitRoot copies the old root's contents
into the freshly allocated left child, rewrites the root as a two-entry
node whose slot 1 maps the old fence key to the new left child's page
number and whose slot 2 maps the stopper key 0xFF 0xFF to the root's old
right pointer, clears the right-sibling pointer, sets Cnt = Act = 2 and
increments the level by one. -/
theorem splitRoot_spec (pds : Nat) (root : MPage) (rightNo leftNo : Nat)
    (hr : root.rightP = rightNo) (hr48 : rightNo < 2 ^ 48) (hl48 : leftNo < 2 ^ 48) :
    (splitRoot pds root rightNo leftNo).2 = root
    ∧ cnt (splitRoot pds root rightNo leftNo).1 = 2
    ∧ (splitRoot pds root rightNo leftNo).1.act = 2
    ∧ (splitRoot pds root rightNo leftNo).1.rightP = 0
    ∧ (splitRoot pds root rightNo leftNo).1.lvl = root.lvl + 1
    ∧ (slotAt (splitRoot pds root rightNo leftNo).1 1).key = (slotAt root (cnt root)).key
    ∧ getId (slotAt (splitRoot pds root rightNo leftNo).1 1).value = leftNo
    ∧ (slotAt (splitRoot pds root rightNo leftNo).1 2).key = [255, 255]
    ∧ getId (slotAt (splitRoot pds root rightNo leftNo).1 2).value = root.rightP := by
  subst hr
  refine ⟨rfl, rfl, rfl, rfl, rfl, rfl, ?_, rfl, ?_⟩
  · exact getId_putId leftNo hl48
  · exact getId_putId root.rightP hr48

/-- C7 witness: splitting a one-slot root with right pointer 3 into left
child 5 yields the described two-entry root. -/
theorem splitRoot_spec_witness :
    (⟨[⟨[7], putId 2, SlotType.Unique, false⟩], 1, 0, 0, false, false, 3, 100⟩ : MPage).rightP = 3
    ∧ ((splitRoot 4070 ⟨[⟨[7], putId 2, SlotType.Unique, false⟩], 1, 0, 0, false, false, 3, 100⟩
          3 5).2 = ⟨[⟨[7], putId 2, SlotType.Unique, false⟩], 1, 0, 0, false, false, 3, 100⟩
      ∧ cnt (splitRoot 4070 ⟨[⟨[7], putId 2, SlotType.Unique, false⟩], 1, 0, 0, false, false,
          3, 100⟩ 3 5).1 = 2
      ∧ (splitRoot 4070 ⟨[⟨[7], putId 2, SlotType.Unique, false⟩], 1, 0, 0, false, false,
          3, 100⟩ 3 5).1.act = 2
      ∧ (splitRoot 4070 ⟨[⟨[7], putId 2, SlotType.Unique, false⟩], 1, 0, 0, false, false,
          3, 100⟩ 3 5).1.rightP = 0
      ∧ (splitRoot 4070 ⟨[⟨[7], putId 2, SlotType.Unique, false⟩], 1, 0, 0, false, false,
          3, 100⟩ 3 5).1.lvl =
          (⟨[⟨[7], putId 2, SlotType.Unique, false⟩], 1, 0, 0, false, false, 3, 100⟩ : MPage).lvl
            + 1
      ∧ (slotAt (splitRoot 4070 ⟨[⟨[7], putId 2, SlotType.Unique, false⟩], 1, 0, 0, false,
          false, 3, 100⟩ 3 5).1 1).key =
          (slotAt (⟨[⟨[7], putId 2, SlotType.Unique, false⟩], 1, 0, 0, false, false, 3,
            100⟩ : MPage) (cnt ⟨[⟨[7], putId 2, SlotType.Unique, false⟩], 1, 0, 0, false,
            false, 3, 100⟩)).key
      ∧ getId (slotAt (splitRoot 4070 ⟨[⟨[7], putId 2, SlotType.Unique, false⟩], 1, 0, 0,
          false, false, 3, 100⟩ 3 5).1 1).value = 5
      ∧ (slotAt (splitRoot 4070 ⟨[⟨[7], putId 2, SlotType.Unique, false⟩], 1, 0, 0, false,
          false, 3, 100⟩ 3 5).1 2).key = [255, 255]
      ∧ getId (slotAt (splitRoot 4070 ⟨[⟨[7], putId 2, SlotType.Unique, false⟩], 1, 0, 0,
          false, false, 3, 100⟩ 3 5).1 2).value =
          (⟨[⟨[7], putId 2, SlotType.Unique, false⟩], 1, 0, 0, false, false, 3,
            100⟩ : MPage).rightP) :=
  ⟨rfl, splitRoot_spec 4070 ⟨[⟨[7], putId 2, SlotType.Unique, false⟩], 1, 0, 0, false, false,
    3, 100⟩ 3 5 rfl (by decide) (by decide)⟩

/-! C5: DeleteKey on an absent or dead key. -/

/-- C5: DeleteKey at level 0 applied to a key that is absent from its
target page (the slot FindSlot lands on, past a librarian place holder,
holds a different key) or whose slot is already dead returns plain success
and leaves the page completely unchanged; hence two consecutive deletes of
the same key both succeed. -/
theorem deleteKey_absent_or_dead_noop (p : MPage) (k : Bytes) (b : Bool)
    (hs0 : 1 ≤ findSlotIdx p k)
    (habs : keyCmp (slotAt p (if (slotAt p (findSlotIdx p k)).typ = SlotType.Librarian
        then findSlotIdx p k + 1 else findSlotIdx p k)).key k ≠ Ordering.eq
      ∨ (slotAt p (if (slotAt p (findSlotIdx p k)).typ = SlotType.Librarian
        then findSlotIdx p k + 1 else findSlotIdx p k)).dead = true)
    (hact : 0 < p.act) :
    deleteKeyOnPage p k 0 b = DelRes.ok p := by
  have hs0' : ¬ findSlotIdx p k = 0 := by omega
  have hfound : ¬ (keyCmp (slotAt p (if (slotAt p (findSlotIdx p k)).typ = SlotType.Librarian
      then findSlotIdx p k + 1 else findSlotIdx p k)).key k = Ordering.eq
    ∧ (slotAt p (if (slotAt p (findSlotIdx p k)).typ = SlotType.Librarian
      then findSlotIdx p k + 1 else findSlotIdx p k)).dead = false) := by
    rcases habs with h | h
    · exact fun hc => h hc.1
    · intro hc; rw [h] at hc; exact Bool.noConfusion hc.2
  simp only [deleteKeyOnPage]
  rw [if_neg hs0', if_neg hfound]
  rw [if_neg (by intro hc; exact hfound hc.1)]
  rw [if_neg (by intro hc; exact absurd hc.1 (by omega))]
  rw [if_neg (by omega)]

/-- C5 witness: deleting the absent key 1 from a live two-slot page is a
no-op returning success. -/
theorem deleteKey_absent_or_dead_noop_witness :
    (1 ≤ findSlotIdx pageTwoSlots [1])
    ∧ (keyCmp (slotAt pageTwoSlots (if (slotAt pageTwoSlots
          (findSlotIdx pageTwoSlots [1])).typ = SlotType.Librarian
        then findSlotIdx pageTwoSlots [1] + 1 else findSlotIdx pageTwoSlots [1])).key [1]
          ≠ Ordering.eq
      ∨ (slotAt pageTwoSlots (if (slotAt pageTwoSlots
          (findSlotIdx pageTwoSlots [1])).typ = SlotType.Librarian
        then findSlotIdx pageTwoSlots [1] + 1 else findSlotIdx pageTwoSlots [1])).dead = true)
    ∧ 0 < pageTwoSlots.act
    ∧ deleteKeyOnPage pageTwoSlots [1] 0 false = DelRes.ok pageTwoSlots :=
  ⟨by decide, by decide, by decide,
    deleteKey_absent_or_dead_noop pageTwoSlots [1] false (by decide) (by decide) (by decide)⟩

/-! C8: the heap / slot-array separation invariant. -/

/-- Any result page cleanPage admits an insertion on still has room for the
incoming entry plus two slots above its slot array. -/
theorem cleanPage_ok_min_bound (pds ss : Nat) (p : MPage) (keyLen slot valLen s : Nat)
    (p₁ : MPage) (h : cleanPage pds ss p keyLen slot valLen = CleanRes.ok s p₁) :
    (cnt p₁ + 2) * ss + keyLen + 1 + valLen + 1 ≤ p₁.minOff := by
  simp only [cleanPage] at h
  split_ifs at h with h1 h2 h3 h4 h5
  · injection h with hslot hpage
    subst hpage
    exact h3
  · injection h with hslot hpage
    subst hpage
    exact le_of_lt h5

/-- insertSlot adds at most two slots (two when appending a librarian and
the new slot, one consumed dead slot otherwise). -/
theorem insertSlotCore_cnt_le (p : MPage) (s : Nat) (k v : Bytes) (typ : SlotType) :
    cnt (insertSlotCore p s k v typ) ≤ cnt p + 2 := by
  simp only [insertSlotCore]
  rcases hfd : firstDeadFrom p (skipPrevLibrarian p s) with _ | d
  · simp only [cnt, List.length_append, List.length_cons, List.length_take, List.length_drop]
    omega
  · simp only [cnt, List.length_append, List.length_cons, List.length_take, List.length_drop,
      List.length_eraseIdx]
    split_ifs <;> omega

/-- C8 counterexample: a page sitting exactly at the cleanPage admission
threshold (SlotSize 6, header size 26, 4070 data bytes) is admitted for the
insertion of a 1-byte key with a 6-byte value, yet after insertSlot the
claimed bound Min ≥ (Cnt+2)*SlotSize + header fails on the resulting
page. -/
theorem heap_invariant_counterexample :
    cleanPage 4070 6 pageAtThreshold 1 1 6 = CleanRes.ok 1 pageAtThreshold
    ∧ ¬ ((cnt (insertSlotCore pageAtThreshold 1 [1] [0, 0, 0, 0, 0, 0] SlotType.Unique) + 2) * 6
          + 26
        ≤ (insertSlotCore pageAtThreshold 1 [1] [0, 0, 0, 0, 0, 0] SlotType.Unique).minOff) := by
  decide

/-- C8 amended: after an insertSlot admitted by cleanPage the page
satisfies Min ≥ Cnt*SlotSize — the descending heap never crosses the
ascending slot array — though not the claimed stronger bound
Min ≥ (Cnt+2)*SlotSize + header_size. -/
theorem insertSlot_heap_above_slots (pds ss : Nat) (p p₁ : MPage) (k v : Bytes)
    (slot s : Nat) (typ : SlotType)
    (hc : cleanPage pds ss p k.length slot BtId = CleanRes.ok s p₁)
    (hv : v.length = BtId) :
    cnt (insertSlotCore p₁ s k v typ) * ss ≤ (insertSlotCore p₁ s k v typ).minOff := by
  have hbound := cleanPage_ok_min_bound pds ss p k.length slot BtId s p₁ hc
  have hcnt := insertSlotCore_cnt_le p₁ s k v typ
  have hmin : (insertSlotCore p₁ s k v typ).minOff
      = p₁.minOff - (v.length + 1) - (k.length + 1) := by
    simp only [insertSlotCore]
    rcases firstDeadFrom p₁ (skipPrevLibrarian p₁ s) with _ | d <;> rfl
  have hmul : cnt (insertSlotCore p₁ s k v typ) * ss ≤ (cnt p₁ + 2) * ss :=
    Nat.mul_le_mul_right ss hcnt
  rw [hmin, hv]
  generalize hA : (cnt p₁ + 2) * ss = A at hbound hmul
  generalize hB : cnt (insertSlotCore p₁ s k v typ) * ss = B at hmul
  unfold BtId at hbound ⊢
  omega

/-- C8 amended witness: the boundary page of the counterexample still
satisfies the corrected bound Min ≥ Cnt*SlotSize after the insert. -/
theorem insertSlot_heap_above_slots_witness :
    cleanPage 4070 6 pageAtThreshold ([1] : Bytes).length 1 BtId = CleanRes.ok 1 pageAtThreshold
    ∧ ([0, 0, 0, 0, 0, 0] : Bytes).length = BtId
    ∧ cnt (insertSlotCore pageAtThreshold 1 [1] [0, 0, 0, 0, 0, 0] SlotType.Unique) * 6
        ≤ (insertSlotCore pageAtThreshold 1 [1] [0, 0, 0, 0, 0, 0] SlotType.Unique).minOff :=
  ⟨by decide, by decide,
    insertSlot_heap_above_slots 4070 6 pageAtThreshold pageAtThreshold [1] [0, 0, 0, 0, 0, 0]
      1 1 SlotType.Unique (by decide) (by decide)⟩

/-! C2: round trip of the page-id-mapping serialisation. -/

theorem getUint32LE_put (n : Nat) (rest : Bytes) (h : n < 2 ^ 32) :
    getUint32LE (putUint32LE n ++ rest) = n := by
  simp only [putUint32LE, List.cons_append, List.nil_append, getUint32LE,
    List.getD_cons_succ, List.getD_cons_zero]
  omega

theorem getUint64LE_put (n : Nat) (rest : Bytes) (h : n < 2 ^ 64) :
    getUint64LE (putUint64LE n ++ rest) = n := by
  simp only [putUint64LE, List.cons_append, List.nil_append, getUint64LE,
    List.getD_cons_succ, List.getD_cons_zero]
  omega

theorem drop4_put32 (n : Nat) (rest : Bytes) : (putUint32LE n ++ rest).drop 4 = rest := rfl

theorem drop8_encEntry (e : Nat × Nat) (rest : Bytes) :
    (encEntry e ++ rest).drop 8 = putUint32LE e.2 ++ rest := rfl

theorem drop12_encEntry (e : Nat × Nat) (rest : Bytes) : (encEntry e ++ rest).drop 12 = rest :=
  rfl

theorem encEntry_append (e : Nat × Nat) (rest : Bytes) :
    encEntry e ++ rest = putUint64LE e.1 ++ (putUint32LE e.2 ++ rest) := by
  simp [encEntry, List.append_assoc]

/-- Decoding inverts encoding of an entry list. -/
theorem decEntriesGo_encEntries (es : List (Nat × Nat))
    (hb : ∀ e ∈ es, e.1 < 2 ^ 64 ∧ e.2 < 2 ^ 32) :
    decEntriesGo es.length (encEntries es) = es := by
  induction es with
  | nil => rfl
  | cons e tl ih =>
    have he := hb e (List.mem_cons_self e tl)
    have henc : encEntries (e :: tl) = encEntry e ++ encEntries tl := rfl
    simp only [List.length_cons, henc, decEntriesGo]
    rw [drop8_encEntry, drop12_encEntry, encEntry_append, getUint64LE_put _ _ he.1,
      getUint32LE_put _ _ he.2, ih (fun x hx => hb x (List.mem_cons_of_mem e hx))]

theorem drop8_chainPage (a b : Nat) (rest : Bytes) :
    (putUint32LE a ++ (putUint32LE b ++ rest)).drop 8 = rest := rfl

/-- The chain walk of loadPageIdMapping inverts the chain production of
serializePageIdMappingToPage: pages of maxN entries each, stamped with the
id of the next freshly allocated page, terminated by a page stamped
0xFFFFFFFF with the remaining entries. -/
theorem loadChain_serializeChain (maxN : Nat) (hm : 1 ≤ maxN) :
    ∀ (fuel : Nat) (es : List (Nat × Nat)) (nid : Nat),
      es.length ≤ fuel →
      (∀ e ∈ es, e.1 < 2 ^ 64 ∧ e.2 < 2 ^ 32) →
      nid + es.length < 4294967295 →
      loadPageIdMappingGo (serializeChainGo maxN nid fuel es) = es := by
  intro fuel
  induction fuel with
  | zero =>
    intro es nid hlen hb hid
    have hnil : es = [] := List.eq_nil_of_length_eq_zero (Nat.le_zero.mp hlen)
    subst hnil
    simp only [serializeChainGo, mkChainPage, loadPageIdMappingGo]
    rw [List.append_assoc, drop4_put32, drop8_chainPage, getUint32LE_put _ _ (by norm_num),
      getUint32LE_put _ _ (by norm_num)]
    simp [decEntriesGo]
  | succ fuel ih =>
    intro es nid hlen hb hid
    by_cases hfull : maxN ≤ es.length
    · have hmlt : maxN < 2 ^ 32 := by omega
      have hnidlt : nid < 2 ^ 32 := by omega
      have hnidne : ¬ nid = 4294967295 := by omega
      simp only [serializeChainGo, if_pos hfull, mkChainPage, loadPageIdMappingGo]
      rw [List.append_assoc, drop4_put32, drop8_chainPage, getUint32LE_put _ _ hmlt,
        getUint32LE_put _ _ hnidlt, if_neg hnidne]
      have htl : (es.take maxN).length = maxN := by
        rw [List.length_take]; omega
      have hdec : decEntriesGo maxN (encEntries (es.take maxN)) = es.take maxN := by
        have hd := decEntriesGo_encEntries (es.take maxN)
          (fun x hx => hb x (List.take_subset _ _ hx))
        rwa [htl] at hd
      rw [hdec]
      rw [ih (es.drop maxN) (nid + 1) (by rw [List.length_drop]; omega)
        (fun x hx => hb x (List.drop_subset _ _ hx))
        (by rw [List.length_drop]; omega)]
      exact List.take_append_drop maxN es
    · have hlt : es.length < 2 ^ 32 := by omega
      simp only [serializeChainGo, if_neg hfull, mkChainPage, loadPageIdMappingGo]
      rw [List.append_assoc, drop4_put32, drop8_chainPage, getUint32LE_put _ _ hlt,
        getUint32LE_put _ _ (by norm_num), if_pos rfl]
      exact decEntriesGo_encEntries es hb

/-- C2: serialising the logical-to-host page-id mapping (into page zero's
data region plus a chain of host pages terminated by 0xFFFFFFFF) and
deserialising it on reconstruction is a round trip: loadPageIdMapping
recovers exactly the entry list that serializePageIdMappingToPage wrote,
for any page data size holding at least one entry per page, 64-bit logical
page numbers, 32-bit host ids, and fresh host ids below the terminator. -/
theorem pageIdMapping_roundtrip (pds nid : Nat) (es : List (Nat × Nat))
    (hcap : 1 ≤ maxSerializeNum pds)
    (hb : ∀ e ∈ es, e.1 < 2 ^ 64 ∧ e.2 < 2 ^ 32)
    (hid : nid + es.length < 4294967295) :
    loadPageIdMappingGo (serializePageIdMapping pds nid es) = es :=
  loadChain_serializeChain (maxSerializeNum pds) hcap es.length es nid le_rfl hb hid

/-- C2 witness: a two-entry mapping on 4070-byte page data regions
serialises and deserialises back to itself. -/
theorem pageIdMapping_roundtrip_witness :
    1 ≤ maxSerializeNum 4070
    ∧ (∀ e ∈ ([(0, 5), (1, 7)] : List (Nat × Nat)), e.1 < 2 ^ 64 ∧ e.2 < 2 ^ 32)
    ∧ 2 + ([(0, 5), (1, 7)] : List (Nat × Nat)).length < 4294967295
    ∧ loadPageIdMappingGo (serializePageIdMapping 4070 2 [(0, 5), (1, 7)]) = [(0, 5), (1, 7)] :=
  ⟨by decide, by decide, by decide,
    pageIdMapping_roundtrip 4070 2 [(0, 5), (1, 7)] (by decide) (by decide) (by decide)⟩

/-! Helper lemmas for FindSlot and the FindKey loop. -/

theorem take_set_of_le (l : List PSlot) (i n : Nat) (a : PSlot) (h : n ≤ i) :
    (l.set i a).take n = l.take n := by
  apply List.ext_getElem?
  intro j
  by_cases hj : j < n
  · rw [List.getElem?_take, List.getElem?_take, if_pos hj, if_pos hj,
      List.getElem?_set_ne (by omega)]
  · rw [List.getElem?_take, List.getElem?_take, if_neg hj, if_neg hj]

/-- FindSlot lands right after a prefix of strictly smaller keys. -/
theorem findSlotGo_append (k : Bytes) (pre : List PSlot) (x : PSlot) (rest : List PSlot) :
    ∀ base, (∀ y ∈ pre, keyCmp y.key k = Ordering.lt) →
      keyCmp x.key k ≠ Ordering.lt →
      findSlotGo k (pre ++ x :: rest) base = base + pre.length := by
  induction pre with
  | nil =>
    intro base _ hx
    simp only [List.nil_append, findSlotGo, if_pos hx, List.length_nil]
    omega
  | cons y tl ih =>
    intro base hpre hx
    have hy : keyCmp y.key k = Ordering.lt := hpre y (List.mem_cons_self y tl)
    simp only [List.cons_append, findSlotGo]
    rw [if_neg (fun hne => hne hy)]
    have hrec := ih (base + 1) (fun z hz => hpre z (List.mem_cons_of_mem _ hz)) hx
    show findSlotGo k (tl ++ x :: rest) (base + 1) = base + (y :: tl).length
    rw [hrec]
    simp only [List.length_cons]
    omega

/-- When some slot key is at least the search key, FindSlot returns a
valid 1-based slot. -/
theorem findSlotGo_bounds (k : Bytes) :
    ∀ (l : List PSlot) (base : Nat), (∃ x ∈ l, keyCmp x.key k ≠ Ordering.lt) →
      base ≤ findSlotGo k l base ∧ findSlotGo k l base ≤ base + l.length - 1 := by
  intro l
  induction l with
  | nil =>
    rintro base ⟨x, hx, _⟩
    exact absurd hx (List.not_mem_nil x)
  | cons y tl ih =>
    rintro base ⟨x, hx, hxk⟩
    simp only [findSlotGo, List.length_cons]
    by_cases hy : keyCmp y.key k ≠ Ordering.lt
    · rw [if_pos hy]
      omega
    · rw [if_neg hy]
      have hxtl : x ∈ tl := by
        rcases List.mem_cons.mp hx with h | h
        · subst h; exact absurd hxk hy
        · exact h
      have hb := ih (base + 1) ⟨x, hxtl, hxk⟩
      omega

/-- The FindKey loop returns the not-found result when every live slot in
range fails the exact-match test and the fence slot is a live
non-librarian. -/
theorem findKeyLoop_notFound (p : MPage) (k : Bytes) (valMax : Nat)
    (hfTyp : (slotAt p (cnt p)).typ ≠ SlotType.Librarian)
    (hfLive : (slotAt p (cnt p)).dead = false)
    (hnm : ∀ j, 1 ≤ j → j ≤ cnt p → (slotAt p j).dead = false →
      ¬ matchesSlot (slotAt p j) k) :
    ∀ fuel s, 1 ≤ s → s ≤ cnt p → cnt p < s + fuel →
      findKeyLoop p k valMax fuel s = FindRes.notFound := by
  intro fuel
  induction fuel with
  | zero => intro s h1 h2 h3; omega
  | succ fuel ih =>
    intro s h1 h2 h3
    simp only [findKeyLoop]
    by_cases hlib : (slotAt p s).typ = SlotType.Librarian
    · have hslt : s < cnt p := lt_of_le_of_ne h2 (fun he => hfTyp (he ▸ hlib))
      rw [if_pos hlib]
      by_cases hstop : s + 1 = cnt p ∧ p.rightP = 0
      · rw [if_pos hstop]
      · rw [if_neg hstop]
        rcases hd : (slotAt p (s + 1)).dead with _ | _
        · rw [if_neg (by simp [hd])]
          rw [if_neg (hnm (s + 1) (by omega) (by omega) hd)]
        · rw [if_pos (by simp [hd])]
          have hne : s + 1 ≠ cnt p := by
            intro he; rw [he] at hd; rw [hfLive] at hd; exact Bool.noConfusion hd
          rw [if_pos (by omega)]
          exact ih (s + 2) (by omega) (by omega) (by omega)
    · rw [if_neg hlib]
      by_cases hstop : s = cnt p ∧ p.rightP = 0
      · rw [if_pos hstop]
      · rw [if_neg hstop]
        rcases hd : (slotAt p s).dead with _ | _
        · rw [if_neg (by simp [hd])]
          rw [if_neg (hnm s h1 h2 hd)]
        · rw [if_pos (by simp [hd])]
          have hne : s ≠ cnt p := by
            intro he; rw [he] at hd; rw [hfLive] at hd; exact Bool.noConfusion hd
          rw [if_pos (by omega)]
          exact ih (s + 1) (by omega) (by omega) (by omega)

/-- The FindKey loop returns the matched value (truncated to valMax) when
the slot it starts on — past a librarian place holder — is a live exact
match. -/
theorem findKeyLoop_found (p : MPage) (k : Bytes) (valMax fuel s j : Nat)
    (hjdef : (if (slotAt p s).typ = SlotType.Librarian then s + 1 else s) = j)
    (hne : ¬ (j = cnt p ∧ p.rightP = 0))
    (hdead : (slotAt p j).dead = false)
    (hm : matchesSlot (slotAt p j) k) :
    findKeyLoop p k valMax (fuel + 1) s =
      FindRes.found (min valMax (slotAt p j).value.length) ((slotAt p j).value.take valMax) := by
  simp only [findKeyLoop]
  rw [hjdef, if_neg hne, if_neg (by simp [hdead]), if_pos hm]

/-- A page's slot list splits at any valid 1-based slot position. -/
theorem slots_decomp (p : MPage) (s : Nat) (h1 : 1 ≤ s) (h2 : s ≤ cnt p) :
    p.slots = p.slots.take (s - 1) ++ slotAt p s :: p.slots.drop s := by
  have hcnt_eq : cnt p = p.slots.length := rfl
  have hlen : s - 1 < p.slots.length := by omega
  conv_lhs => rw [← List.take_append_drop (s - 1) p.slots]
  rw [List.drop_eq_getElem_cons hlen]
  rw [← List.getD_eq_getElem p.slots default hlen]
  rw [show s - 1 + 1 = s from by omega]
  rfl

/-! C1: insert followed by find returns the stored value. -/

/-- insertSlot in append mode (no dead slot at or after the insertion
point): a dead librarian and the new live slot are inserted before the
insertion point, shifting the tail up by two. -/
theorem insertSlotCore_none (p : MPage) (s : Nat) (k v : Bytes) (typ : SlotType)
    (hskip : skipPrevLibrarian p s = s) (hfd : firstDeadFrom p s = none) :
    insertSlotCore p s k v typ =
      { p with
        slots := p.slots.take (s - 1) ++ (⟨k, v, SlotType.Librarian, true⟩ : PSlot) ::
          (⟨k, v, typ, false⟩ : PSlot) :: p.slots.drop (s - 1),
        act := p.act + 1,
        minOff := p.minOff - (v.length + 1) - (k.length + 1) } := by
  simp only [insertSlotCore, hskip, hfd]

/-- insertSlot consuming the first dead slot d at or after the insertion
point: the new slot lands at the insertion point and the range up to d
shifts by one, overwriting the dead slot. -/
theorem insertSlotCore_some (p : MPage) (s d : Nat) (k v : Bytes) (typ : SlotType)
    (hskip : skipPrevLibrarian p s = s) (hfd : firstDeadFrom p s = some d) :
    insertSlotCore p s k v typ =
      { p with
        slots := p.slots.take (s - 1) ++ (⟨k, v, typ, false⟩ : PSlot) ::
          ((p.slots.eraseIdx (d - 1)).drop (s - 1)),
        act := p.act + 1,
        minOff := p.minOff - (v.length + 1) - (k.length + 1) } := by
  simp only [insertSlotCore, hskip, hfd]

/-- C1: inserting a fresh key k (absent from the page: all keys before the
insertion point are smaller, the key at the insertion point is larger) with
value v through InsertKey's non-match path, on a page with room (the
cleanPage fast path applies), returns Ok, and a subsequent FindKey of k on
the resulting page returns the non-negative length min valMax (value
length) and the stored value truncated to valMax bytes. -/
theorem insert_then_find (pds ss : Nat) (p : MPage) (k v : Bytes) (s valMax : Nat)
    (h1 : 1 ≤ s) (h2 : s ≤ cnt p)
    (hpre : ∀ y ∈ p.slots.take (s - 1), keyCmp y.key k = Ordering.lt)
    (hgt : keyCmp (slotAt p s).key k = Ordering.gt)
    (hpl : s = 1 ∨ (slotAt p (s - 1)).typ ≠ SlotType.Librarian)
    (hcp1 : ¬ ((pds : Int) -
        ((((1 + k.length + 1 + BtId) % 256) * (p.act + 1) + (p.act * 2 + 1) * ss : Nat) :
          Int) < ((pds / 5 : Nat) : Int)))
    (hcp3 : (cnt p + 2) * ss + k.length + 1 + BtId + 1 ≤ p.minOff) :
    insertKeyOnPage pds ss p k v = InsRes.ok (insertSlotCore p s k v SlotType.Unique)
    ∧ findKeyOnPage (insertSlotCore p s k v SlotType.Unique) k valMax =
        FindRes.found (min valMax v.length) (v.take valMax) := by
  have hcnt_eq : cnt p = p.slots.length := rfl
  have hlen : s - 1 < p.slots.length := by omega
  have hgtne : keyCmp (slotAt p s).key k ≠ Ordering.lt := by rw [hgt]; decide
  have hgtneq : keyCmp (slotAt p s).key k ≠ Ordering.eq := by rw [hgt]; decide
  have hdecomp : p.slots = p.slots.take (s - 1) ++ slotAt p s :: p.slots.drop s :=
    slots_decomp p s h1 h2
  have hfind : findSlotIdx p k = s := by
    unfold findSlotIdx
    conv_lhs => rw [hdecomp]
    rw [findSlotGo_append k _ _ _ 1 hpre hgtne, List.length_take]
    omega
  have hskip : skipPrevLibrarian p s = s := by
    unfold skipPrevLibrarian
    rcases hpl with h | h
    · subst h
      rw [if_neg]
      rintro ⟨hlt, _⟩
      omega
    · rw [if_neg]
      rintro ⟨_, ht⟩
      exact h ht
  have hb2 : ((1 + k.length + 1 + BtId) % 256) * (p.act + 1) + (p.act * 2 + 1) * ss ≤ pds := by
    by_contra hgtp
    apply hcp1
    generalize hA : ((1 + k.length + 1 + BtId) % 256) * (p.act + 1) + (p.act * 2 + 1) * ss = A
      at hgtp ⊢
    omega
  have hclean : cleanPage pds ss p k.length s BtId = CleanRes.ok s p := by
    simp only [cleanPage]
    rw [if_neg hcp1, if_neg (not_lt.mpr hb2), if_pos hcp3]
  have hins : insertKeyOnPage pds ss p k v = InsRes.ok (insertSlotCore p s k v SlotType.Unique) := by
    simp only [insertKeyOnPage]
    rw [hfind]
    rw [if_neg (show ¬ s = 0 by omega)]
    have hslot1 : (if (slotAt p s).typ = SlotType.Librarian ∧
        keyCmp (slotAt p s).key k = Ordering.eq then s + 1 else s) = s :=
      if_neg (fun hc => hgtneq hc.2)
    rw [hslot1]
    rw [if_pos (Or.inr hgtneq)]
    rw [hclean]
  refine ⟨hins, ?_⟩
  have hlentake : (p.slots.take (s - 1)).length = s - 1 := by
    rw [List.length_take]; omega
  rcases hfd : firstDeadFrom p s with _ | d
  · have hP := insertSlotCore_none p s k v SlotType.Unique hskip hfd
    rw [hP]
    have hq_s : slotAt ({ p with
          slots := p.slots.take (s - 1) ++ (⟨k, v, SlotType.Librarian, true⟩ : PSlot) ::
            (⟨k, v, SlotType.Unique, false⟩ : PSlot) :: p.slots.drop (s - 1),
          act := p.act + 1,
          minOff := p.minOff - (v.length + 1) - (k.length + 1) } : MPage) s =
        ⟨k, v, SlotType.Librarian, true⟩ := by
      show (p.slots.take (s - 1) ++ _ :: _ :: p.slots.drop (s - 1)).getD (s - 1) default = _
      rw [List.getD_append_right _ _ _ _ (by omega), hlentake, Nat.sub_self,
        List.getD_cons_zero]
    have hq_s1 : slotAt ({ p with
          slots := p.slots.take (s - 1) ++ (⟨k, v, SlotType.Librarian, true⟩ : PSlot) ::
            (⟨k, v, SlotType.Unique, false⟩ : PSlot) :: p.slots.drop (s - 1),
          act := p.act + 1,
          minOff := p.minOff - (v.length + 1) - (k.length + 1) } : MPage) (s + 1) =
        ⟨k, v, SlotType.Unique, false⟩ := by
      show (p.slots.take (s - 1) ++ _ :: _ :: p.slots.drop (s - 1)).getD (s + 1 - 1) default = _
      rw [List.getD_append_right _ _ _ _ (by omega), hlentake,
        show s + 1 - 1 - (s - 1) = 1 from by omega, List.getD_cons_succ, List.getD_cons_zero]
    have hcntq : cnt ({ p with
          slots := p.slots.take (s - 1) ++ (⟨k, v, SlotType.Librarian, true⟩ : PSlot) ::
            (⟨k, v, SlotType.Unique, false⟩ : PSlot) :: p.slots.drop (s - 1),
          act := p.act + 1,
          minOff := p.minOff - (v.length + 1) - (k.length + 1) } : MPage) = cnt p + 2 := by
      show (p.slots.take (s - 1) ++ _ :: _ :: p.slots.drop (s - 1)).length = p.slots.length + 2
      rw [List.length_append, hlentake, List.length_cons, List.length_cons, List.length_drop]
      omega
    have hfind' : findSlotIdx ({ p with
          slots := p.slots.take (s - 1) ++ (⟨k, v, SlotType.Librarian, true⟩ : PSlot) ::
            (⟨k, v, SlotType.Unique, false⟩ : PSlot) :: p.slots.drop (s - 1),
          act := p.act + 1,
          minOff := p.minOff - (v.length + 1) - (k.length + 1) } : MPage) k = s := by
      show findSlotGo k (p.slots.take (s - 1) ++ _ :: _ :: p.slots.drop (s - 1)) 1 = s
      rw [findSlotGo_append k _ _ _ 1 hpre (by rw [keyCmp_self]; decide), hlentake]
      omega
    simp only [findKeyOnPage]
    rw [hfind', if_neg (by omega), hcntq]
    rw [show cnt p + 2 + 1 = (cnt p + 2) + 1 from rfl]
    rw [findKeyLoop_found _ k valMax (cnt p + 2) s (s + 1)
      (by rw [hq_s]; simp)
      (by rintro ⟨he, _⟩; rw [hcntq] at he; omega)
      (by rw [hq_s1])
      (by
        rw [hq_s1]
        refine ⟨by simp [effLen], ?_⟩
        simp [effLen, List.take_length, keyCmp_self])]
    rw [hq_s1]
  · have hfdd : (slotAt p d).dead = true := by
      have := List.find?_some hfd
      simpa using this
    have hdmem : s ≤ d ∧ d < s + (cnt p - s) := by
      have hm := List.mem_of_find?_eq_some hfd
      exact List.mem_range'_1.mp hm
    have hds : s ≤ d := hdmem.1
    have hdc : d < cnt p := by omega
    have hP := insertSlotCore_some p s d k v SlotType.Unique hskip hfd
    rw [hP]
    have hq_s : slotAt ({ p with
          slots := p.slots.take (s - 1) ++ (⟨k, v, SlotType.Unique, false⟩ : PSlot) ::
            ((p.slots.eraseIdx (d - 1)).drop (s - 1)),
          act := p.act + 1,
          minOff := p.minOff - (v.length + 1) - (k.length + 1) } : MPage) s =
        ⟨k, v, SlotType.Unique, false⟩ := by
      show (p.slots.take (s - 1) ++ _ :: _).getD (s - 1) default = _
      rw [List.getD_append_right _ _ _ _ (by omega), hlentake, Nat.sub_self,
        List.getD_cons_zero]
    have hcntq : cnt ({ p with
          slots := p.slots.take (s - 1) ++ (⟨k, v, SlotType.Unique, false⟩ : PSlot) ::
            ((p.slots.eraseIdx (d - 1)).drop (s - 1)),
          act := p.act + 1,
          minOff := p.minOff - (v.length + 1) - (k.length + 1) } : MPage) = cnt p := by
      show (p.slots.take (s - 1) ++ _ :: _).length = p.slots.length
      rw [List.length_append, hlentake, List.length_cons, List.length_drop,
        List.length_eraseIdx]
      rw [if_pos (by omega)]
      omega
    have hfind' : findSlotIdx ({ p with
          slots := p.slots.take (s - 1) ++ (⟨k, v, SlotType.Unique, false⟩ : PSlot) ::
            ((p.slots.eraseIdx (d - 1)).drop (s - 1)),
          act := p.act + 1,
          minOff := p.minOff - (v.length + 1) - (k.length + 1) } : MPage) k = s := by
      show findSlotGo k (p.slots.take (s - 1) ++ _ :: _) 1 = s
      rw [findSlotGo_append k _ _ _ 1 hpre (by rw [keyCmp_self]; decide), hlentake]
      omega
    simp only [findKeyOnPage]
    rw [hfind', if_neg (by omega), hcntq]
    rw [findKeyLoop_found _ k valMax (cnt p) s s
      (by rw [hq_s]; simp)
      (by rintro ⟨he, _⟩; rw [hcntq] at he; omega)
      (by rw [hq_s])
      (by
        rw [hq_s]
        refine ⟨by simp [effLen], ?_⟩
        simp [effLen, List.take_length, keyCmp_self])]
    rw [hq_s]

/-- C1 witness: inserting key [1,1,1,1] with a 6-byte value into the fresh
tree's initial leaf and finding it again returns the value. -/
theorem insert_then_find_witness :
    ((1 : Nat) ≤ 1
      ∧ 1 ≤ cnt pageInitialLeaf
      ∧ (∀ y ∈ pageInitialLeaf.slots.take (1 - 1), keyCmp y.key [1, 1, 1, 1] = Ordering.lt)
      ∧ keyCmp (slotAt pageInitialLeaf 1).key [1, 1, 1, 1] = Ordering.gt
      ∧ ((1 : Nat) = 1 ∨ (slotAt pageInitialLeaf (1 - 1)).typ ≠ SlotType.Librarian)
      ∧ ¬ ((4070 : Int) -
          ((((1 + ([1, 1, 1, 1] : Bytes).length + 1 + BtId) % 256) * (pageInitialLeaf.act + 1)
            + (pageInitialLeaf.act * 2 + 1) * 6 : Nat) : Int) < ((4070 / 5 : Nat) : Int))
      ∧ (cnt pageInitialLeaf + 2) * 6 + ([1, 1, 1, 1] : Bytes).length + 1 + BtId + 1
          ≤ pageInitialLeaf.minOff)
    ∧ (insertKeyOnPage 4070 6 pageInitialLeaf [1, 1, 1, 1] [0, 0, 0, 0, 0, 1] =
        InsRes.ok (insertSlotCore pageInitialLeaf 1 [1, 1, 1, 1] [0, 0, 0, 0, 0, 1]
          SlotType.Unique)
      ∧ findKeyOnPage (insertSlotCore pageInitialLeaf 1 [1, 1, 1, 1] [0, 0, 0, 0, 0, 1]
          SlotType.Unique) [1, 1, 1, 1] 6 =
        FindRes.found (min 6 ([0, 0, 0, 0, 0, 1] : Bytes).length)
          (([0, 0, 0, 0, 0, 1] : Bytes).take 6)) :=
  ⟨⟨by decide, by decide, by decide, by decide, by decide, by decide, by decide⟩,
    insert_then_find 4070 6 pageInitialLeaf [1, 1, 1, 1] [0, 0, 0, 0, 0, 1] 1 6
      (by decide) (by decide) (by decide) (by decide) (by decide) (by decide) (by decide)⟩

/-! C4: InsertKey on an exact live or dead match. -/

/-- C4: when InsertKey finds an exact live or dead match for k at the slot
FindSlot lands on (past a librarian place holder carrying an equal key),
it takes the in-place update branch: the slot's value becomes v, the dead
flag is cleared (Act incremented exactly when the match was dead — a
revive), no slot is added and no other slot changes, and a subsequent
FindKey returns the new value (last-writer-wins). -/
theorem insert_match_overwrites (pds ss : Nat) (p : MPage) (k v : Bytes)
    (s0 s valMax : Nat)
    (hs0 : findSlotIdx p k = s0) (hs0pos : 1 ≤ s0)
    (hcase : (s = s0 ∧ ¬ ((slotAt p s0).typ = SlotType.Librarian ∧
          keyCmp (slotAt p s0).key k = Ordering.eq))
      ∨ (s = s0 + 1 ∧ (slotAt p s0).typ = SlotType.Librarian ∧
          keyCmp (slotAt p s0).key k = Ordering.eq))
    (htyp : (slotAt p s).typ = SlotType.Unique)
    (hkey : (slotAt p s).key = k)
    (hslt : s < cnt p)
    (hpre : ∀ y ∈ p.slots.take (s0 - 1), keyCmp y.key k = Ordering.lt) :
    insertKeyOnPage pds ss p k v = InsRes.ok (insertKeyMatch p s v)
    ∧ slotAt (insertKeyMatch p s v) s = ⟨k, v, SlotType.Unique, false⟩
    ∧ cnt (insertKeyMatch p s v) = cnt p
    ∧ (insertKeyMatch p s v).act =
        (if (slotAt p s).dead = true then p.act + 1 else p.act)
    ∧ (∀ j, 1 ≤ j → j ≠ s → slotAt (insertKeyMatch p s v) j = slotAt p j)
    ∧ findKeyOnPage (insertKeyMatch p s v) k valMax =
        FindRes.found (min valMax v.length) (v.take valMax) := by
  have hcnt_eq : cnt p = p.slots.length := rfl
  have h1s : 1 ≤ s := by rcases hcase with ⟨h, _⟩ | ⟨h, _⟩ <;> omega
  have hslen : s - 1 < p.slots.length := by omega
  have hkeyeq : keyCmp (slotAt p s).key k = Ordering.eq := by rw [hkey]; exact keyCmp_self k
  have hskip : (if (slotAt p s0).typ = SlotType.Librarian ∧
      keyCmp (slotAt p s0).key k = Ordering.eq then s0 + 1 else s0) = s := by
    rcases hcase with ⟨hse, hnc⟩ | ⟨hse, hc⟩
    · rw [if_neg hnc]; omega
    · rw [if_pos hc]; omega
  have hmatchcond : ¬ (effLen (slotAt p s) ≠ k.length ∨
      keyCmp (slotAt p s).key k ≠ Ordering.eq) := by
    rintro (h | h)
    · apply h; simp [effLen, htyp, hkey]
    · exact h hkeyeq
  have hins : insertKeyOnPage pds ss p k v = InsRes.ok (insertKeyMatch p s v) := by
    simp only [insertKeyOnPage]
    rw [hs0, if_neg (show ¬ s0 = 0 by omega), hskip, if_neg hmatchcond]
  have hsetlen : (insertKeyMatch p s v).slots.length = p.slots.length := by
    show (p.slots.set (s - 1) _).length = p.slots.length
    exact List.length_set p.slots _ _
  have hcnt2 : cnt (insertKeyMatch p s v) = cnt p := hsetlen
  have hslotAt_s : slotAt (insertKeyMatch p s v) s = ⟨k, v, SlotType.Unique, false⟩ := by
    show (p.slots.set (s - 1) _).getD (s - 1) default = _
    rw [List.getD_eq_getElem _ _ (by rw [List.length_set]; exact hslen)]
    rw [List.getElem_set_self (by rw [List.length_set]; exact hslen)]
    rw [show ({ slotAt p s with value := v, dead := false } : PSlot) =
      ⟨(slotAt p s).key, v, (slotAt p s).typ, false⟩ from rfl, hkey, htyp]
  have hother : ∀ j, 1 ≤ j → j ≠ s → slotAt (insertKeyMatch p s v) j = slotAt p j := by
    intro j hj hne
    show (p.slots.set (s - 1) _).getD (j - 1) default = p.slots.getD (j - 1) default
    rw [List.getD_eq_getElem?_getD, List.getD_eq_getElem?_getD,
      List.getElem?_set_ne (show s - 1 ≠ j - 1 by omega)]
  have hact : (insertKeyMatch p s v).act =
      (if (slotAt p s).dead = true then p.act + 1 else p.act) := rfl
  refine ⟨hins, hslotAt_s, hcnt2, hact, hother, ?_⟩
  have hs0le : s0 ≤ cnt (insertKeyMatch p s v) := by
    rw [hcnt2]; omega
  have htake : (insertKeyMatch p s v).slots.take (s0 - 1) = p.slots.take (s0 - 1) := by
    show (p.slots.set (s - 1) _).take (s0 - 1) = p.slots.take (s0 - 1)
    exact take_set_of_le _ _ _ _ (by omega)
  have hx : keyCmp (slotAt (insertKeyMatch p s v) s0).key k ≠ Ordering.lt := by
    rcases hcase with ⟨hse, _⟩ | ⟨hse, hlib, heq⟩
    · rw [← hse, hslotAt_s]
      rw [keyCmp_self]; decide
    · rw [hother s0 hs0pos (by omega)]
      intro hl; rw [hl] at heq; exact Ordering.noConfusion heq
  have hfind2 : findSlotIdx (insertKeyMatch p s v) k = s0 := by
    unfold findSlotIdx
    conv_lhs => rw [slots_decomp (insertKeyMatch p s v) s0 hs0pos hs0le]
    rw [findSlotGo_append _ _ _ _ 1 (fun y hy => hpre y (htake ▸ hy)) hx, List.length_take]
    have : (insertKeyMatch p s v).slots.length = p.slots.length := hsetlen
    omega
  have hjdef : (if (slotAt (insertKeyMatch p s v) s0).typ = SlotType.Librarian
      then s0 + 1 else s0) = s := by
    rcases hcase with ⟨hse, hnc⟩ | ⟨hse, hlib, heq⟩
    · rw [← hse, hslotAt_s]
      rw [if_neg (fun hc => SlotType.noConfusion hc)]
    · rw [hother s0 hs0pos (by omega), if_pos hlib]
      omega
  simp only [findKeyOnPage]
  rw [hfind2, if_neg (show ¬ s0 = 0 by omega), hcnt2]
  rw [findKeyLoop_found _ k valMax (cnt p) s0 s hjdef
    (by rintro ⟨he, _⟩; rw [hcnt2] at he; omega)
    (by rw [hslotAt_s])
    (by
      rw [hslotAt_s]
      refine ⟨by simp [effLen], ?_⟩
      simp [effLen, List.take_length, keyCmp_self])]
  rw [hslotAt_s]

/-- C4 witness: overwriting the key 2 already present and live on the
two-slot page updates the slot in place and a find returns the new
value. -/
theorem insert_match_overwrites_witness :
    (findSlotIdx pageTwoSlots [2] = 1
      ∧ (1 : Nat) ≤ 1
      ∧ (slotAt pageTwoSlots 1).typ = SlotType.Unique
      ∧ (slotAt pageTwoSlots 1).key = [2]
      ∧ 1 < cnt pageTwoSlots)
    ∧ (insertKeyOnPage 4070 6 pageTwoSlots [2] [7, 7, 7, 7, 7, 7] =
        InsRes.ok (insertKeyMatch pageTwoSlots 1 [7, 7, 7, 7, 7, 7])
      ∧ slotAt (insertKeyMatch pageTwoSlots 1 [7, 7, 7, 7, 7, 7]) 1 =
          ⟨[2], [7, 7, 7, 7, 7, 7], SlotType.Unique, false⟩
      ∧ cnt (insertKeyMatch pageTwoSlots 1 [7, 7, 7, 7, 7, 7]) = cnt pageTwoSlots
      ∧ (insertKeyMatch pageTwoSlots 1 [7, 7, 7, 7, 7, 7]).act =
          (if (slotAt pageTwoSlots 1).dead = true then pageTwoSlots.act + 1
            else pageTwoSlots.act)
      ∧ (∀ j, 1 ≤ j → j ≠ 1 →
          slotAt (insertKeyMatch pageTwoSlots 1 [7, 7, 7, 7, 7, 7]) j = slotAt pageTwoSlots j)
      ∧ findKeyOnPage (insertKeyMatch pageTwoSlots 1 [7, 7, 7, 7, 7, 7]) [2] 6 =
          FindRes.found (min 6 ([7, 7, 7, 7, 7, 7] : Bytes).length)
            (([7, 7, 7, 7, 7, 7] : Bytes).take 6)) :=
  ⟨⟨by decide, by decide, by decide, by decide, by decide⟩,
    insert_match_overwrites 4070 6 pageTwoSlots [2] [7, 7, 7, 7, 7, 7] 1 1 6
      (by decide) (by decide) (Or.inl ⟨rfl, by decide⟩) (by decide) (by decide) (by decide)
      (by decide)⟩

/-! C3: delete followed by find reports the key absent. -/

theorem compactTrailGo_subset :
    ∀ (fuel : Nat) (l : List PSlot), ∀ x ∈ compactTrailGo fuel l, x ∈ l := by
  intro fuel
  induction fuel with
  | zero => intro l x hx; exact hx
  | succ fuel ih =>
    intro l x hx
    simp only [compactTrailGo] at hx
    split_ifs at hx with h
    · exact List.eraseIdx_subset _ _ (ih _ x hx)
    · exact hx

/-- Erasing the next-to-last element keeps the last element. -/
theorem eraseIdx_pre_getLast (l : List PSlot) (h : 2 ≤ l.length) :
    (l.eraseIdx (l.length - 2)).getLast? = l.getLast? := by
  rw [List.eraseIdx_eq_take_drop_succ]
  have hlen1 : (l.drop (l.length - 2 + 1)).length = 1 := by
    rw [List.length_drop]; omega
  have hne : l.drop (l.length - 2 + 1) ≠ [] := by
    intro hnil; rw [hnil] at hlen1; simp at hlen1
  rw [List.getLast?_append_of_ne_nil _ hne]
  rw [List.getLast?_eq_getElem?, List.getLast?_eq_getElem?, List.getElem?_drop, hlen1]
  rw [show l.length - 2 + 1 + (1 - 1) = l.length - 1 from by omega]

theorem compactTrailGo_getLast :
    ∀ (fuel : Nat) (l : List PSlot), (compactTrailGo fuel l).getLast? = l.getLast? := by
  intro fuel
  induction fuel with
  | zero => intro l; rfl
  | succ fuel ih =>
    intro l
    simp only [compactTrailGo]
    split_ifs with h
    · rw [ih, eraseIdx_pre_getLast l h.1]
    · rfl

theorem compactTrail_subset (l : List PSlot) : ∀ x ∈ compactTrail l, x ∈ l :=
  compactTrailGo_subset l.length l

theorem compactTrail_getLast (l : List PSlot) : (compactTrail l).getLast? = l.getLast? :=
  compactTrailGo_getLast l.length l

/-- The fence slot (slot Cnt) is the last slot of the page. -/
theorem slotAt_cnt_getLast (p : MPage) : slotAt p (cnt p) = (p.slots.getLast?).getD default := by
  show p.slots.getD (cnt p - 1) default = _
  rw [List.getD_eq_getElem?_getD, List.getLast?_eq_getElem?]
  rfl

/-- Every valid 1-based slot of a page is one of its slots. -/
theorem slotAt_mem (p : MPage) (j : Nat) (h1 : 1 ≤ j) (h2 : j ≤ cnt p) :
    slotAt p j ∈ p.slots := by
  have hcnt_eq : cnt p = p.slots.length := rfl
  have hl : j - 1 < p.slots.length := by omega
  have he : slotAt p j = p.slots.get ⟨j - 1, hl⟩ := List.getD_eq_getElem p.slots default hl
  rw [he]
  exact List.get_mem p.slots (j - 1) hl

/-- C3: deleting a key k live at slot t of its level-0 target page (the
slot DeleteKey's fetch lands on, past a librarian place holder) marks the
slot dead, compacts trailing dead slots, returns plain success, and a
subsequent FindKey of k on the resulting page returns the not-found
result. -/
theorem delete_then_find_absent (p : MPage) (k : Bytes) (t valMax : Nat)
    (ht1 : 1 ≤ t) (ht2 : t < cnt p)
    (hkey : (slotAt p t).key = k)
    (hlive : (slotAt p t).dead = false)
    (hact : 2 ≤ p.act)
    (hs0 : 1 ≤ findSlotIdx p k)
    (hland : (if (slotAt p (findSlotIdx p k)).typ = SlotType.Librarian
        then findSlotIdx p k + 1 else findSlotIdx p k) = t)
    (hnm : ∀ j, 1 ≤ j → j ≤ cnt p → j ≠ t → (slotAt p j).dead = false →
      ¬ matchesSlot (slotAt p j) k)
    (hftyp : (slotAt p (cnt p)).typ ≠ SlotType.Librarian)
    (hflive : (slotAt p (cnt p)).dead = false)
    (hfgt : keyCmp (slotAt p (cnt p)).key k = Ordering.gt) :
    deleteKeyOnPage p k 0 false = DelRes.ok (deleteFoundPage p t)
    ∧ findKeyOnPage (deleteFoundPage p t) k valMax = FindRes.notFound := by
  have hcnt_eq : cnt p = p.slots.length := rfl
  have hfound : keyCmp (slotAt p t).key k = Ordering.eq ∧ (slotAt p t).dead = false :=
    ⟨by rw [hkey]; exact keyCmp_self k, hlive⟩
  have hqslots : (deleteFoundPage p t).slots = compactTrail (markDeadAt p t).slots := rfl
  have hqact : (deleteFoundPage p t).act = p.act - 1 := rfl
  have hcntq_len : cnt (deleteFoundPage p t) = (deleteFoundPage p t).slots.length := rfl
  have hdel : deleteKeyOnPage p k 0 false = DelRes.ok (deleteFoundPage p t) := by
    simp only [deleteKeyOnPage]
    rw [if_neg (show ¬ findSlotIdx p k = 0 by omega), hland, if_pos hfound]
    rw [if_neg (by rintro ⟨_, hlvl, _⟩; omega)]
    rw [if_neg (by rintro ⟨hlvl, _⟩; omega)]
    rw [if_neg (show ¬ (deleteFoundPage p t).act = 0 from by rw [hqact]; omega)]
  refine ⟨hdel, ?_⟩
  have hSlast : (markDeadAt p t).slots.getLast? = p.slots.getLast? := by
    show (p.slots.set (t - 1) _).getLast? = p.slots.getLast?
    rw [List.getLast?_eq_getElem?, List.getLast?_eq_getElem?, List.length_set,
      List.getElem?_set_ne (show t - 1 ≠ p.slots.length - 1 by omega)]
  have hpLast : p.slots.getLast? = some (slotAt p (cnt p)) := by
    rw [List.getLast?_eq_getElem?,
      List.getElem?_eq_getElem (show p.slots.length - 1 < p.slots.length by omega)]
    rw [slotAt_cnt_getLast, List.getLast?_eq_getElem?,
      List.getElem?_eq_getElem (show p.slots.length - 1 < p.slots.length by omega)]
    rfl
  have hqLast : (deleteFoundPage p t).slots.getLast? = some (slotAt p (cnt p)) := by
    rw [hqslots, compactTrail_getLast, hSlast, hpLast]
  have hq_ne : (deleteFoundPage p t).slots ≠ [] := by
    intro hnil
    rw [hnil] at hqLast
    simp at hqLast
  have hq_len : 1 ≤ (deleteFoundPage p t).slots.length := List.length_pos.mpr hq_ne
  have hq_cnt1 : 1 ≤ cnt (deleteFoundPage p t) := by omega
  have hfq : slotAt (deleteFoundPage p t) (cnt (deleteFoundPage p t)) = slotAt p (cnt p) := by
    rw [slotAt_cnt_getLast, hqLast]
    rfl
  have hQS : ∀ x ∈ (markDeadAt p t).slots, x.dead = true ∨ ¬ matchesSlot x k := by
    intro x hx
    obtain ⟨i, hi, hxe⟩ := List.mem_iff_getElem.mp hx
    have hilen : i < p.slots.length := by
      have hls : (markDeadAt p t).slots.length = p.slots.length := List.length_set _ _ _
      omega
    have hi2 : i < (p.slots.set (t - 1)
        ({ slotAt p t with dead := true } : PSlot)).length := by
      simp only [List.length_set]; omega
    by_cases hit : t - 1 = i
    · left
      have hgs : x = ({ slotAt p t with dead := true } : PSlot) := by
        rw [← hxe]
        show (p.slots.set (t - 1) { slotAt p t with dead := true }).get ⟨i, hi2⟩ = _
        subst hit
        exact List.getElem_set_self hi2
      rw [hgs]
    · have hxi : x = p.slots.get ⟨i, hilen⟩ := by
        rw [← hxe]
        show (p.slots.set (t - 1) { slotAt p t with dead := true }).get ⟨i, hi2⟩ = _
        exact List.getElem_set_ne hit hi2
      have hslotAti : slotAt p (i + 1) = p.slots.get ⟨i, hilen⟩ := by
        show p.slots.getD (i + 1 - 1) default = _
        rw [show i + 1 - 1 = i from by omega]
        exact List.getD_eq_getElem p.slots default hilen
      rcases hd : (p.slots.get ⟨i, hilen⟩).dead with _ | _
      · right
        rw [hxi]
        have hno := hnm (i + 1) (by omega) (by omega) (by omega)
          (by rw [hslotAti]; exact hd)
        rw [hslotAti] at hno
        exact hno
      · left
        rw [hxi]
        exact hd
  have hQq : ∀ x ∈ (deleteFoundPage p t).slots, x.dead = true ∨ ¬ matchesSlot x k := by
    intro x hx
    rw [hqslots] at hx
    exact hQS x (compactTrail_subset _ x hx)
  have hmemF := slotAt_mem (deleteFoundPage p t) (cnt (deleteFoundPage p t)) hq_cnt1 le_rfl
  have hbounds := findSlotGo_bounds k (deleteFoundPage p t).slots 1
    ⟨_, hmemF, by rw [hfq, hfgt]; decide⟩
  simp only [findKeyOnPage]
  rw [if_neg (show ¬ findSlotIdx (deleteFoundPage p t) k = 0 from by
    unfold findSlotIdx
    omega)]
  apply findKeyLoop_notFound
  · rw [hfq]; exact hftyp
  · rw [hfq]; exact hflive
  · intro j hj1 hj2 hjd
    rcases hQq _ (slotAt_mem (deleteFoundPage p t) j hj1 hj2) with hdd | hnmx
    · rw [hjd] at hdd; exact Bool.noConfusion hdd
    · exact hnmx
  · unfold findSlotIdx
    omega
  · unfold findSlotIdx
    omega
  · unfold findSlotIdx
    omega

/-- C3 witness: deleting the live key 2 from the two-slot page succeeds and
a subsequent find of key 2 reports it absent. -/
theorem delete_then_find_absent_witness :
    deleteKeyOnPage pageTwoSlots [2] 0 false = DelRes.ok (deleteFoundPage pageTwoSlots 1)
    ∧ findKeyOnPage (deleteFoundPage pageTwoSlots 1) [2] 6 = FindRes.notFound :=
  delete_then_find_absent pageTwoSlots [2] 1 6 (by decide) (by decide) (by decide) (by decide)
    (by decide) (by decide) (by decide)
    (by
      intro j hj1 hj2 hjt hjd
      have hc : cnt pageTwoSlots = 2 := rfl
      have hj : j = 2 := by omega
      subst hj
      decide)
    (by decide) (by decide) (by decide)

end BlinkTree
